import Mathlib

/-!
Verification of the mdict-js MDict (mdx/mdd) parser against its
natural-language specification.

The development shallowly embeds the relevant parts of the source
(`src/unnamed/part_000`, the full parser, and `src/mdict-core.js`, an
earlier revision) into Lean:

* byte buffers are `List Nat` with values understood modulo 256;
* the stateful `Scanner` becomes a structure `(buf, off)` whose read
  operations return the value read together with the successor state;
* external libraries that are not part of this repository
  (RIPEMD-128, MurmurHash3, pako inflate, LZO) are parameters of the
  embedded functions;
* JavaScript `undefined` results become `Option.none`.

Mutable typed arrays (`Uint32Array`, `Float64Array`) are modelled by the
lists of values they contain; the float64 bit-packing trick of the key
table stores a `(hash, order)` pair per entry, which is modelled as a
list of pairs.
-/

namespace MdictJs

/-! ### JavaScript string primitives

The string operations the source uses (`toLowerCase`, `trim`, `<`,
`[length-1]`) are modelled over the character list of a Lean string.
`toLowerCase`/`trim` are modelled on their ASCII behaviour, which is
exact for every string handled in this development. -/

/-- ASCII lower-casing of one character. -/
def jsCharToLower (c : Char) : Char :=
  if 65 ≤ c.toNat ∧ c.toNat ≤ 90 then Char.ofNat (c.toNat + 32) else c

/-- `String.prototype.toLowerCase` (ASCII range). -/
def jsToLower (s : String) : String := ⟨s.data.map jsCharToLower⟩

/-- ASCII whitespace for `trim`. -/
def jsIsSpace (c : Char) : Bool := c = ' ' ∨ c = '\t' ∨ c = '\n' ∨ c = '\r'

/-- `String.prototype.trim` (ASCII whitespace). -/
def jsTrim (s : String) : String :=
  ⟨((s.data.dropWhile jsIsSpace).reverse.dropWhile jsIsSpace).reverse⟩

/-- Big-endian 16-bit read, `DataView.getUint16(off, false)`.
Out-of-range bytes read as 0 here; callers that depend on the JS
RangeError behaviour check the bound explicitly. -/
def getU16 (buf : List Nat) (off : Nat) : Nat :=
  buf.getD off 0 * 256 + buf.getD (off + 1) 0

/-- Big-endian 32-bit read, `DataView.getUint32(off, false)`. -/
def getU32 (buf : List Nat) (off : Nat) : Nat :=
  ((buf.getD off 0 * 256 + buf.getD (off + 1) 0) * 256 + buf.getD (off + 2) 0) * 256
    + buf.getD (off + 3) 0

/-! ## Decryptor (`decrypt`, part_000 lines 99-110 / mdict-core.js 43-54)

The source first replaces the key by `ripemd128(key)`; RIPEMD-128 is an
external library, so it is a parameter `rip` here.  The loop body is a
literal translation: `byte >> 4 | byte << 4` is not masked in the
source (the comment there claims it is already a byte, which is wrong
for the high nibble), the mask to 8 bits happens at the `Uint8Array`
store, modelled by `% 256`. -/

/-- One pass of the decryption loop.  `i` is the running index, `prev`
the previous *original* byte (`0x36` initially). -/
def decryptGo (dk : List Nat) : Nat → Nat → List Nat → List Nat
  | _, _, [] => []
  | i, prev, b :: rest =>
      ((((b >>> 4) ||| (b <<< 4)) ^^^ prev ^^^ (i &&& 0xFF) ^^^ dk.getD (i % dk.length) 0) % 256)
        :: decryptGo dk (i + 1) b rest

/-- `decrypt(buf, key)` from the source: derive the key with
RIPEMD-128 (parameter `rip`), then run the byte loop. -/
def decrypt (rip : List Nat → List Nat) (buf key : List Nat) : List Nat :=
  decryptGo (rip key) 0 0x36 buf

theorem decryptGo_length (dk : List Nat) :
    ∀ (buf : List Nat) (i prev : Nat), (decryptGo dk i prev buf).length = buf.length := by
  intro buf
  induction buf with
  | nil => intro i prev; rfl
  | cons b rest ih => intro i prev; simp [decryptGo, ih]

theorem decrypt_length (rip : List Nat → List Nat) (buf key : List Nat) :
    (decrypt rip buf key).length = buf.length := decryptGo_length _ _ _ _

/-! ## Scanner (part_000 lines 435-535)

`Scanner(buf)` is a cursor over a byte buffer.  The configuration
derived by `config()` (part_000 lines 388-432) is reduced to the two
bits the scanner operations depend on: the engine version flag `_v2`
and whether the encoding is UTF-16 (`_bpu = 2` versus `1`,
`_tail = _bpu` for v2 else `0`). -/

structure Config where
  v2 : Bool
  utf16 : Bool
  deriving DecidableEq, Repr

/-- `_bpu`: bytes per text unit. -/
def Config.bpu (c : Config) : Nat := if c.utf16 then 2 else 1

/-- `_tail`: extra bytes skipped after sized text (v2 only). -/
def Config.tail (c : Config) : Nat := if c.v2 then c.bpu else 0

structure Scanner where
  buf : List Nat
  off : Nat
  deriving DecidableEq, Repr

/-- The scan loop of `_searchTextLen` (UTF-16 branch), running on the
number of in-range probe positions left (`buf.length - off - 1` at
entry, so `fuel = 0` exactly when `off + 2 > buf.length` and the
DataView read would throw a RangeError, modelled by `none`). -/
def findStop16Go (buf : List Nat) : Nat → Nat → Option Nat
  | 0, _ => none
  | fuel + 1, off => if getU16 buf off = 0 then some off else findStop16Go buf fuel (off + 1)

/-- `_searchTextLen` (UTF-16 branch) scans `getUint16(offset++)` until
it reads zero: this probes a 16-bit word at EVERY byte offset.  Returns
the absolute index of the first position `p` with
`buf[p] = buf[p+1] = 0`; `none` models the RangeError the DataView read
throws when the scan runs off the buffer. -/
def findStop16 (buf : List Nat) (off : Nat) : Option Nat :=
  findStop16Go buf (buf.length - off - 1) off

/-- The scan loop of `_searchTextLen` (single-byte branch);
`fuel = buf.length - off` at entry, so `fuel = 0` exactly when the
byte read would be out of range. -/
def findStop8Go (buf : List Nat) : Nat → Nat → Option Nat
  | 0, _ => none
  | fuel + 1, off => if buf.getD off 0 = 0 then some off else findStop8Go buf fuel (off + 1)

/-- `_searchTextLen` (single-byte branch): absolute index of the first
NUL byte at or after `off`. -/
def findStop8 (buf : List Nat) (off : Nat) : Option Nat :=
  findStop8Go buf (buf.length - off) off

/-- `_searchTextLen(dv, offset)`: the byte length the text decode will
use. UTF-16 branch returns `offset - mark` with the post-incremented
`offset` (= stop index + 1); the single-byte branch returns
`offset - mark - 1` (= distance to the NUL). -/
def searchTextLen (c : Config) (buf : List Nat) (off : Nat) : Option Nat :=
  if c.utf16 then (findStop16 buf off).map (fun p => p + 1 - off)
  else (findStop8 buf off).map (fun p => p - off)

/-- `readInt()`: big-endian u32, forward 4. -/
def Scanner.readInt (s : Scanner) : Nat × Scanner :=
  (getU32 s.buf s.off, ⟨s.buf, s.off + 4⟩)

def Scanner.readUint16 (s : Scanner) : Nat × Scanner :=
  (getU16 s.buf s.off, ⟨s.buf, s.off + 2⟩)

def Scanner.readUint8 (s : Scanner) : Nat × Scanner :=
  (s.buf.getD s.off 0, ⟨s.buf, s.off + 1⟩)

/-- `readUTF16(len)`: hand `len` bytes to the external UTF-16LE
decoder (we return the byte slice), forward `len`. -/
def Scanner.readUTF16 (len : Nat) (s : Scanner) : List Nat × Scanner :=
  ((s.buf.drop s.off).take len, ⟨s.buf, s.off + len⟩)

/-- `readText()`: NUL-search a text, decode the prefix (we return the
byte slice handed to the external decoder), then forward
`len + _bpu` — note: `_bpu`, for v1 and v2 alike. -/
def Scanner.readText (c : Config) (s : Scanner) : Option (List Nat × Scanner) :=
  (searchTextLen c s.buf s.off).map fun len =>
    ((s.buf.drop s.off).take len, ⟨s.buf, s.off + len + c.bpu⟩)

/-- `readTextSized(len)`: decode `len * _bpu` bytes then forward the
byte count plus `_tail`. -/
def Scanner.readTextSized (c : Config) (len : Nat) (s : Scanner) : List Nat × Scanner :=
  ((s.buf.drop s.off).take (len * c.bpu), ⟨s.buf, s.off + len * c.bpu + c.tail⟩)

/-- `readRaw(len)`: a `len`-byte view (or the rest of the buffer when
`len` is `undefined`), forwarding accordingly. -/
def Scanner.readRaw (len : Option Nat) (s : Scanner) : List Nat × Scanner :=
  match len with
  | some l => ((s.buf.drop s.off).take l, ⟨s.buf, s.off + l⟩)
  | none => (s.buf.drop s.off, ⟨s.buf, s.buf.length⟩)

/-- `checksum()`: skip 4 bytes. -/
def Scanner.checksum (s : Scanner) : Scanner := ⟨s.buf, s.off + 4⟩

/-- In-place overwrite of `repl.length` bytes starting at `pos`,
modelling writes through a `Uint8Array` view into the buffer. -/
def writeSlice (buf : List Nat) (pos : Nat) (repl : List Nat) : List Nat :=
  buf.take pos ++ repl ++ buf.drop (pos + repl.length)

/-- `readBlock(len, expectedBufSize, decryptor)` (part_000 lines
504-526).  The codecs `pako.inflate` and `lzo.decompress` are external
libraries, passed as `inflate` and `lzoD` (`none` = the codec threw);
`rip` is RIPEMD-128 for the decryptor.  `useDec` tells whether a
decryptor was supplied (`_decryptors[1]`, which is the `decrypt`
above).

Result: `(returned scanner or none if the codec threw, the source
scanner afterwards)`.  The source scanner's buffer reflects the
in-place decryption, its offset the `offset += 8` / `forward(len)`
mutations (which happen before a codec throw / after success). -/
def Scanner.readBlock (v2 : Bool) (inflate : List Nat → Option (List Nat))
    (lzoD : List Nat → Nat → Nat → Option (List Nat)) (rip : List Nat → List Nat)
    (useDec : Bool) (len expected : Nat) (s : Scanner) : Option Scanner × Scanner :=
  let comp_type := s.buf.getD s.off 0
  if comp_type = 0 then
    -- for v2 skip comp_type and checksum, else stay; return `this`
    (some ⟨s.buf, if v2 then s.off + 8 else s.off⟩, ⟨s.buf, if v2 then s.off + 8 else s.off⟩)
  else
    let off8 := s.off + 8
    let len8 := len - 8
    let payload := (s.buf.drop off8).take len8
    let passkey := (s.buf.drop (off8 - 4)).take 4 ++ [0x95, 0x36, 0x00, 0x00]
    let tmp := if useDec then decrypt rip payload passkey else payload
    let buf2 := if useDec then writeSlice s.buf off8 tmp else s.buf
    match (if comp_type = 2 then inflate tmp else lzoD tmp expected 4096) with
    | none => (none, ⟨buf2, off8⟩)
    | some out => (some ⟨out, 0⟩, ⟨buf2, off8 + len8⟩)

/-! ## Record block table (`createRecordBlockTable`, part_000 lines 289-332)

The table is a `Uint32Array` of `N+1` `(offset_comp, offset_decomp)`
pairs, built by `alloc`/`put` from the record-block index
(`read_record_block`, lines 670-688): starting at `(block_pos, 0)` the
running sums of the `comp_size`/`decomp_size` pairs are pushed,
followed by the final sentinel.  `rbtArr p0 blocks` is the resulting
flat array. -/

def rbtArrGo : List (Nat × Nat) → Nat → Nat → List Nat
  | [], c, d => [c, d]
  | (cs, ds) :: bs, c, d => c :: d :: rbtArrGo bs (c + cs) (d + ds)

def rbtArr (p0 : Nat) (blocks : List (Nat × Nat)) : List Nat :=
  rbtArrGo blocks p0 0

/-- Cumulative compressed offset of block `j` (`p0` plus the sum of the
first `j` compressed sizes). -/
def compCum (p0 : Nat) : List (Nat × Nat) → Nat → Nat
  | _, 0 => p0
  | [], _ + 1 => p0
  | (cs, _) :: bs, j + 1 => compCum (p0 + cs) bs j

/-- Cumulative decompressed offset of block `j`. -/
def decompCum : List (Nat × Nat) → Nat → Nat
  | _, 0 => 0
  | [], _ + 1 => 0
  | (_, ds) :: bs, j + 1 => ds + decompCum bs j

/-- The record block descriptor returned by `find`. -/
structure RBlock where
  block_no : Nat
  comp_offset : Nat
  comp_size : Nat
  decomp_offset : Nat
  decomp_size : Nat
  deriving DecidableEq, Repr

/-- The descriptor the source constructs from slot `i` of the array. -/
def rbtMk (arr : List Nat) (i : Nat) : RBlock :=
  ⟨i, arr.getD (2 * i) 0, arr.getD (2 * i + 2) 0 - arr.getD (2 * i) 0,
    arr.getD (2 * i + 1) 0, arr.getD (2 * i + 3) 0 - arr.getD (2 * i + 1) 0⟩

/-- The `while (true)` bisection of `createRecordBlockTable.find`; at
the top of each iteration `i = (lo + hi) >> 1` (written out as
`(lo + hi) / 2` below) and `val = arr[(i << 1) + 1]` for the current
`lo`, `hi`. -/
def rbtFindLoop (arr : List Nat) (keyAt : Int) (lo hi : Nat) : Option RBlock :=
  if hi - lo ≤ 1 then
    if (lo + hi) / 2 < hi then some (rbtMk arr ((lo + hi) / 2)) else none
  else if keyAt < (arr.getD (2 * ((lo + hi) / 2) + 1) 0 : Int) then
    rbtFindLoop arr keyAt lo ((lo + hi) / 2)
  else
    rbtFindLoop arr keyAt ((lo + hi) / 2) hi
termination_by hi - lo
decreasing_by all_goals omega

/-- `find(keyAt)`: range check against the final sentinel
(`hi = (arr.length >> 1) - 1`), then the bisection over the whole
table. -/
def rbtFind (arr : List Nat) (keyAt : Int) : Option RBlock :=
  if keyAt > (arr.getD (2 * (arr.length / 2 - 1) + 1) 0 : Int) ∨ keyAt < 0 then none
  else rbtFindLoop arr keyAt 0 (arr.length / 2 - 1)

/-! ## Key table (`createKeyTable`, part_000 lines 198-275)

After `alloc`/`put`/`sort` the table consists of

* `view`: the `(key_hashcode, original_key_order)` pairs, sorted by
  hash code (`Array.prototype.sort` with a comparator that compares the
  hash halves only; modelled by an insertion sort on the hash), and
* `data`: the record offsets in original key order.

`put(offset, key)` stores `hash(key)` where
`hash(str) = MurmurHash3.hashString(str.toLowerCase(), 32, 0xFE176)`;
MurmurHash3 is an external library, a parameter `murmur` here. -/

structure Keyinfo where
  offset : Nat
  size : Option Nat
  deriving DecidableEq, Repr

def insertByHash (p : Nat × Nat) : List (Nat × Nat) → List (Nat × Nat)
  | [] => [p]
  | q :: qs => if p.1 < q.1 then p :: q :: qs else q :: insertByHash p qs

def sortByHash : List (Nat × Nat) → List (Nat × Nat)
  | [] => []
  | p :: ps => insertByHash p (sortByHash ps)

/-- Build `(view, data)` from the `(key, offset)` entries in keyword
section order, as the sequence of `put` calls followed by `sort()`
does. -/
def ktBuild (murmur : String → Nat) (entries : List (String × Nat)) :
    List (Nat × Nat) × List Nat :=
  (sortByHash ((List.range entries.length).map
      fun ord => (murmur (jsToLower (entries.getD ord ("", 0)).1), ord)),
    entries.map Prod.snd)

/-- The backward walk of `find`: `while (true) { if (view[--i << 1]
!== hashcode) { i++; break; } }` — decrement while the previous entry
still carries the same hash (the out-of-range read at `i = -1` yields
`undefined`, never equal to the hash). -/
def ktStart (view : List (Nat × Nat)) (hc : Nat) : Nat → Nat
  | 0 => 0
  | i + 1 =>
    match view.get? i with
    | some (h, _) => if h = hc then ktStart view hc i else i + 1
    | none => i + 1

/-- The forward collection of `find`: push
`{offset: data[at], size: at < data.length - 2 ? data[at+1] - data[at]
: undefined}` while the hash still matches (an out-of-range `view`
read stops the loop).  The fuel only bounds the loop, which consumes
one `view` slot per step, so `view.length` fuel is never exhausted. -/
def ktCollect (view : List (Nat × Nat)) (data : List Nat) (hc : Nat) : Nat → Nat → List Keyinfo
  | 0, _ => []
  | fuel + 1, i =>
    match view.get? i with
    | none => []
    | some (h, at_) =>
      if h = hc then
        ⟨data.getD at_ 0,
          if at_ < data.length - 2 then some (data.getD (at_ + 1) 0 - data.getD at_ 0)
          else none⟩ :: ktCollect view data hc fuel (i + 1)
      else []

/-- The `while (true)` bisection of `createKeyTable.find`.  `val` is
`view[i << 1]`, `undefined` (here `none`) when `i` is out of range;
`hashcode < undefined` is false in JS, so the else branch is taken
then.  The loop always terminates through its own guards; the fuel
(`view.length + 2` at the entry point) bounds the bisection steps and
is never exhausted on the inputs used here. -/
def ktFindLoop (view : List (Nat × Nat)) (data : List Nat) (hc : Nat) :
    Nat → Nat → Nat → Nat → Option (List Keyinfo)
  | 0, _, _, _ => none
  | fuel + 1, lo, hi, i =>
    match view.get? i with
    | some (val, _) =>
      if hc = val then
        some (ktCollect view data hc view.length (ktStart view hc i))
      else if hi = lo ∨ i = hi ∨ i = lo then none
      else if hc < val then ktFindLoop view data hc fuel lo i ((lo + i) / 2)
      else ktFindLoop view data hc fuel i hi ((i + hi) / 2)
    | none =>
      -- val is undefined: never equal to the hash, and `hc < undefined` is false
      if hi = lo ∨ i = hi ∨ i = lo then none
      else ktFindLoop view data hc fuel i hi ((i + hi) / 2)

/-- `find(key)`: hash the key (the hash function lower-cases), then
bisect with `lo = 0`, `hi = arr.length - 1`, `i = (lo + hi) >> 1`. -/
def ktFind (murmur : String → Nat) (view : List (Nat × Nat)) (data : List Nat)
    (key : String) : Option (List Keyinfo) :=
  let hc := murmur (jsToLower key)
  ktFindLoop view data hc (view.length + 2) 0 (view.length - 1) ((view.length - 1) / 2)

/-! ## Lookup engine (part_000 lines 697-919)

`_adaptKey` (from `config()`) is passed as a parameter `adapt`; with
the default attributes (`KeyCaseSensitive`/`StripKey` unset) it is
`key.toLowerCase()`. -/

/-- The mdd path normalization (part_000 line 791):
`word = '\\' + word.replace(/(^[\/\\])|([\/]$)/, '')` applied to the
trimmed, lower-cased phrase.  `String.prototype.replace` with a
non-global regex removes only the FIRST match: a single leading `/` or
`\`, or failing that a single trailing `/`. -/
def stripLeadOrTrail (s : String) : String :=
  match s.data with
  | [] => s
  | c :: rest =>
    if c = '/' ∨ c = '\\' then ⟨rest⟩
    else if s.data.getLast? = some '/' then ⟨s.data.dropLast⟩
    else s

def mddNorm (phrase : String) : String :=
  ⟨'\\' :: (stripLeadOrTrail (jsToLower (jsTrim phrase))).data⟩

/-- `followLink` composed with the recursive lookup (part_000 lines
709-713, 733-738): a definition starting with `@@@LINK=` is resolved
by looking up the rest as a keyword, with no depth bound whatsoever.
`defs` maps a keyword to its definition text (`none` = the keyword has
no entry).  `resolveFuel` unrolls the recursion `n` times: the source
behaviour is its limit, so `resolveFuel defs n w = none` for every `n`
means the source recursion never produces an answer.  Results:
`some (some d)` a definition, `some none` lookup rejected (word not
found), `none` no answer within `n` unrollings. -/
def resolveFuel (defs : String → Option String) : Nat → String → Option (Option String)
  | 0, _ => none
  | n + 1, w =>
    match defs w with
    | none => some none
    | some d => if d.take 8 = "@@@LINK=" then resolveFuel defs n (d.drop 8) else some (some d)

/-- `LOOKUP.mdx`, express mode (part_000 lines 763-777): trim and
lower-case the phrase, `KEY_TABLE.find` it, optionally filter by a
caller-supplied offset; `none` models the
`reject('*WORD NOT FOUND*')` branch. -/
def lookupMdxExpress (murmur : String → Nat) (view : List (Nat × Nat)) (data : List Nat)
    (phrase : String) (offset : Option Nat) : Option (List Keyinfo) :=
  let word := jsToLower (jsTrim phrase)
  (ktFind murmur view data word).map fun infos =>
    match offset with
    | some o => infos.filter (fun v => v.offset = o)
    | none => infos

/-- A keyword-index entry (`read_keyword_index`, lines 604-627),
restricted to the fields scan mode uses. -/
structure KIdx where
  first_word : String
  last_word : String
  index : Nat
  deriving DecidableEq, Repr

/-- The `while (len > 1)` look-back inside `reduce`. -/
def lookBack (arr : List KIdx) : Nat → Nat
  | 0 => 0
  | 1 => 1
  | len + 2 =>
    if (arr.getD (len + 1) ⟨"", "", 0⟩).last_word ≠ (arr.getD (len + 2) ⟨"", "", 0⟩).first_word
    then len + 2
    else lookBack arr (len + 1)

theorem lookBack_le (arr : List KIdx) : ∀ len, lookBack arr len ≤ len := by
  intro len
  induction len using Nat.strong_induction_on with
  | _ len ih =>
    match len with
    | 0 => exact le_refl 0
    | 1 => exact le_refl 1
    | len + 2 =>
      rw [lookBack]
      split
      · exact le_refl _
      · exact le_trans (ih (len + 1) (by omega)) (by omega)

/-- The body of `reduce` (lines 869-888); the recursion consumes array
slices that strictly shrink, so `fuel = arr.length` at the entry point
is never exhausted (at `fuel = 0` the array is empty and the result is
the `arr[0]` = `undefined` the source would produce). -/
def reduceGo (adapt : String → String) : Nat → List KIdx → String → Option KIdx
  | 0, arr, _ => arr.head?
  | fuel + 1, arr, phrase =>
    if arr.length > 1 then
      let len := arr.length / 2
      if phrase.data < (adapt (arr.getD len ⟨"", "", 0⟩).first_word).data then
        reduceGo adapt fuel (arr.take (lookBack arr len)) phrase
      else
        reduceGo adapt fuel (arr.drop len) phrase
    else arr.head?

/-- `reduce(arr, phrase)`: bisect the keyword index to the entry whose
block should hold the phrase.  `arr[0]` of an empty array is
`undefined`, hence `Option`. -/
def reduce (adapt : String → String) (arr : List KIdx) (phrase : String) : Option KIdx :=
  reduceGo adapt arr.length arr phrase

/-- The body of `shrink` (lines 892-919), with `fuel = arr.length` at
the entry point exactly as for `reduceGo`.  `pos` models the `.pos`
property attached to slices, with the top-level `undefined` modelled
as 0 (as the `(arr.pos || 0)` coercions read it).  The two
special-case `===` comparisons compare a String wrapper object
(`new Object(...)` in `loadKeys`) against a primitive in the source
and thus never hold there; they are kept as written, and no claim
below depends on them. -/
def shrinkGo (adapt : String → String) : Nat → List String → Nat → String → Nat
  | 0, arr, pos, phrase => pos + (if phrase = adapt (arr.getD 0 "") then 0 else 1)
  | fuel + 1, arr, pos, phrase =>
    if arr.length > 1 then
      let len := arr.length / 2
      let key := adapt (arr.getD len "")
      if phrase.data < key.data then
        if key.data.getLast? = some '-' ∧ arr.getD (len + 1) "" = phrase then pos + len + 1
        else shrinkGo adapt fuel (arr.take len) pos phrase
      else
        if (arr.getD len "").data.getLast? = some ' ' ∧ arr.getD (len - 1) "" = phrase then
          pos + len - 1
        else shrinkGo adapt fuel (arr.drop len) (pos + len) phrase
    else pos + (if phrase = adapt (arr.getD 0 "") then 0 else 1)

/-- `shrink(arr, phrase)`: bisect inside a loaded key block to the
index of the phrase (or its insertion point). -/
def shrink (adapt : String → String) (arr : List String) (pos : Nat) (phrase : String) : Nat :=
  shrinkGo adapt arr.length arr pos phrase

/-- The backward walk in `findCandidates` (lines 825-831): step back
over entries whose adapted key still equals the phrase. -/
def walkBack (adapt : String → String) (keys : List String) (phrase : String) : Nat → Nat
  | 0 => 0
  | idx + 1 =>
    if adapt (keys.getD idx "") ≠ phrase then idx + 1
    else walkBack adapt keys phrase idx

/-- `findCandidates(phrase)` (lines 818-843) in scan mode.  `blocks`
holds the decoded `(keyword, record_offset)` pairs of each key block,
indexed like `KEY_INDEX` (this is what `loadKeys` reads and decodes
from the file; the single-slot cache does not change its value).
`MAX_CANDIDATES = 64`. -/
def findCandidates (adapt : String → String) (keyIndex : List KIdx)
    (blocks : List (List (String × Nat))) (phrase0 : String) : List (String × Nat) :=
  let phrase := adapt phrase0
  match reduce adapt keyIndex phrase with
  | none => []
  | some kdx =>
    let list := blocks.getD kdx.index []
    let keys := list.map Prod.fst
    let idx := walkBack adapt keys phrase (shrink adapt keys 0 phrase)
    let candidates := (list.drop idx).take 64
    let shortage := 64 - candidates.length
    if shortage > 0 then
      match keyIndex.get? (kdx.index + 1) with
      | some kdx2 => candidates ++ (blocks.getD kdx2.index []).take shortage
      | none => candidates
    else candidates

/-- `LOOKUP.mdx`, scan mode with no offset filter (lines 779-786):
candidates whose raw key lower-cases to the trimmed, lower-cased
phrase. -/
def lookupMdxScan (adapt : String → String) (keyIndex : List KIdx)
    (blocks : List (List (String × Nat))) (phrase : String) : List (String × Nat) :=
  let word := jsToLower (jsTrim phrase)
  (findCandidates adapt keyIndex blocks word).filter fun v => jsToLower v.1 = word

/-- Outcomes of an express-mode mdd lookup, separating the promise
rejection the source codes for from the TypeError it actually throws
when indexing an `undefined` result. -/
inductive MddOutcome where
  | resource (k : Keyinfo)
  | rejectNotFound
  | thrownTypeError
  deriving DecidableEq, Repr

/-- `LOOKUP.mdd`, express mode (part_000 lines 789-799): normalize the
phrase, then `var keyinfo = KEY_TABLE.find(word)[0]`.  When `find`
returns `undefined` (word not in the table), the `[0]` subscript
throws a TypeError before the `if (keyinfo) ... else reject(...)` test
is reached; the reject branch is reachable only for a defined `find`
result with no first element, which `find` never produces. -/
def lookupMddExpress (murmur : String → Nat) (view : List (Nat × Nat)) (data : List Nat)
    (phrase : String) : MddOutcome :=
  let word := mddNorm phrase
  match ktFind murmur view data word with
  | none => .thrownTypeError
  | some infos =>
    match infos.head? with
    | some k => .resource k
    | none => .rejectNotFound

/-! ## Concrete model dictionaries

The MurmurHash3 library is external to this repository, so the hash is
a parameter throughout; for the concrete dictionaries below it is
instantiated with small stub functions.  The flaws exhibited do not
depend on any property of the hash beyond the order/equality pattern
realised by the stub (for the real hash the same pattern arises for
whichever stored key happens to carry the strictly largest hash, and
for any query whose hash misses the table). -/

/-- Hash stub for the C1 dictionary: `hash "a" = 0 < hash "b" = 1`,
so after sorting, `"b"` occupies the top slot of the key table. -/
def murmurC1 : String → Nat := fun s => if s = "b" then 1 else 0

/-- Hash stub for the C2 dictionary: three distinct hashes in key
order. -/
def murmurC2 : String → Nat :=
  fun s => if s = "a" then 0 else if s = "b" then 1 else 2

/-- Hash stub for the C9 dictionary: the stored key hashes to 5, any
other string (in particular the normalized query) to 3. -/
def murmurC9 : String → Nat := fun s => if s = "\\a.png" then 5 else 3

/-- C1: FALSE as stated; the code, not the claim, is at fault.  The
claim says express mode (sorted hash table) and scan mode (bisect the
keyword directory, then scan one block) resolve every phrase to the
same set of definitions, and `find`'s own comment promises "all
possible matched key with the same hash code ... else return
undefined".  But the express-mode bisection loop
(`createKeyTable.find`) returns `undefined` whenever `i` stalls at
`lo` without ever probing index `hi`, so the entry holding the
strictly largest hash of the table can never be found.  In the
two-entry dictionary {a ↦ 10, b ↦ 20} with hash(a) < hash(b), express
lookup of "b" is rejected (`none`) although the pair ("b", 20) is in
the key table, while scan mode returns exactly that entry. -/
theorem c1_express_scan_divergence :
    lookupMdxExpress murmurC1 (ktBuild murmurC1 [("a", 10), ("b", 20)]).1
        (ktBuild murmurC1 [("a", 10), ("b", 20)]).2 "b" none = none
    ∧ lookupMdxScan jsToLower [⟨"a", "b", 0⟩] [[("a", 10), ("b", 20)]] "b" = [("b", 20)]
    ∧ (murmurC1 (jsToLower "b"), 1) ∈ (ktBuild murmurC1 [("a", 10), ("b", 20)]).1 := by
  refine ⟨by decide, by decide, by decide⟩

/-- C2: FALSE as stated; the code, not the claim, is at fault.  The
claim (and the source comment "size of the last record is not
required") say `size` is absent exactly for the last ordinal `N-1`,
but the guard `at < data.length - 2` also drops the size of ordinal
`N-2`.  In the three-entry table with offsets [10, 20, 30], the entry
of ordinal 1 (not the last) is yielded with `size = none`, although
`secondary[2] - secondary[1] = 10` is well defined; the claim would
require `some 10`. -/
theorem c2_size_absent_at_penultimate :
    ktFind murmurC2 (ktBuild murmurC2 [("a", 10), ("b", 20), ("c", 30)]).1
        (ktBuild murmurC2 [("a", 10), ("b", 20), ("c", 30)]).2 "b"
      = some [⟨20, none⟩]
    ∧ Keyinfo.mk 20 none ≠ Keyinfo.mk 20 (some (30 - 20)) := by
  refine ⟨by decide, by decide⟩

/-- C3 counterexample: the claim says `/img/a.png`, `\img\a.png` and
`img/a.png` all normalize to the stored key `\img\a.png`; in fact the
code rewrites no interior separator, so `/img/a.png` maps to
`\img/a.png`, a different key than `\img\a.png` maps to. -/
theorem c3_interior_slash_not_normalized :
    mddNorm "/img/a.png" ≠ "\\img\\a.png"
    ∧ mddNorm "/img/a.png" ≠ mddNorm "\\img\\a.png" := by
  refine ⟨by decide, by decide⟩

/-- C3 (amended): the mdd normalization strips one single leading `/`
or `\` (or, failing that, one trailing `/`) from the trimmed
lower-cased phrase and prepends `\`; interior separators are kept, so
`/img/a.png` and `img/a.png` both map to `\img/a.png`, while
`\img\a.png` and `img\a.png` both map to `\img\a.png`. -/
theorem c3_normalization_amended :
    mddNorm "/img/a.png" = "\\img/a.png"
    ∧ mddNorm "img/a.png" = "\\img/a.png"
    ∧ mddNorm "\\img\\a.png" = "\\img\\a.png"
    ∧ mddNorm "img\\a.png" = "\\img\\a.png" := by
  refine ⟨by decide, by decide, by decide, by decide⟩

/-- The C4 dictionary: two definitions linking to each other. -/
def cycDefs : String → Option String :=
  fun w => if w = "a" then some "@@@LINK=b" else if w = "b" then some "@@@LINK=a" else none

/-- C4: FALSE as stated; the code, not the claim, is at fault.  The
spec demands that a cyclic `@@@LINK=` chain abort with a LinkCycle
error after a small depth, but `followLink` recurses into `lookup`
with no depth counter at all: on the two-element cycle
a ↦ `@@@LINK=b` ↦ `@@@LINK=a` the recursion never produces an answer,
within any number `n` of unrollings. -/
theorem c4_link_cycle_never_terminates (n : Nat) :
    resolveFuel cycDefs n "a" = none ∧ resolveFuel cycDefs n "b" = none := by
  induction n with
  | zero => exact ⟨rfl, rfl⟩
  | succ n ih =>
    exact ⟨(rfl : resolveFuel cycDefs (n + 1) "a" = resolveFuel cycDefs n "b").trans ih.2,
      (rfl : resolveFuel cycDefs (n + 1) "b" = resolveFuel cycDefs n "a").trans ih.1⟩

/-- C4 witness: even past the depth 8 at which the spec would abort
with LinkCycle, the recursion has produced no answer. -/
theorem c4_link_cycle_never_terminates_witness :
    resolveFuel cycDefs 9 "a" = none :=
  (c4_link_cycle_never_terminates 9).1

/-- C5 counterexample: a block whose 4-byte tag starts with 3 (not 0,
1 or 2) does not make `readBlock` fail: the tag is simply routed to
the LZO branch, and with a codec run that succeeds `readBlock` returns
a fresh scanner over the codec output. -/
theorem c5_unknown_tag_returns_scanner :
    (Scanner.readBlock true (fun _ => none) (fun _ e _ => some (List.replicate e 0))
        (fun k => k) false 12 4 ⟨[3, 0, 0, 0, 9, 9, 9, 9, 5, 6, 7, 8], 0⟩).1
      = some ⟨[0, 0, 0, 0], 0⟩ := by
  decide

/-- C9: FALSE as the code stands; the code, not the claim, is at
fault.  For an express-mode mdd lookup whose normalized phrase is not
in the table, `KEY_TABLE.find(word)` returns `undefined` and the
subscript in `KEY_TABLE.find(word)[0]` throws a TypeError out of
`LOOKUP.mdd` before the `reject("*RESOURCE NOT FOUND*")` branch (dead
code) can run — not the per-query NotFound rejection the claim (and
the code's own else-branch) intend. -/
theorem c9_mdd_notfound_throws_typeerror :
    lookupMddExpress murmurC9 (ktBuild murmurC9 [("\\a.png", 0)]).1
        (ktBuild murmurC9 [("\\a.png", 0)]).2 "zz" = .thrownTypeError
    ∧ MddOutcome.thrownTypeError ≠ MddOutcome.rejectNotFound := by
  refine ⟨by decide, by decide⟩

/-! ## C7: the decryption transform, pointwise -/

theorem decryptGo_get? (dk : List Nat) :
    ∀ (buf : List Nat) (j i0 prev0 : Nat), j < buf.length →
      (decryptGo dk i0 prev0 buf).get? j = some (
        ((((buf.getD j 0) >>> 4) ||| ((buf.getD j 0) <<< 4)) ^^^
          (if j = 0 then prev0 else buf.getD (j - 1) 0) ^^^ ((i0 + j) &&& 0xFF) ^^^
          dk.getD ((i0 + j) % dk.length) 0) % 256) := by
  intro buf
  induction buf with
  | nil => intro j i0 prev0 h; simp at h
  | cons b rest ih =>
    intro j i0 prev0 h
    cases j with
    | zero => simp [decryptGo]
    | succ j =>
      have h' : j < rest.length := by simpa using h
      have step := ih j (i0 + 1) b h'
      have e1 : (decryptGo dk i0 prev0 (b :: rest)).get? (j + 1)
          = (decryptGo dk (i0 + 1) b rest).get? j := rfl
      rw [e1, step]
      have e2 : i0 + 1 + j = i0 + (j + 1) := by omega
      cases j with
      | zero => simp [e2]
      | succ j => simp [e2]

/-- C7: CONFIRMED.  For a derived key of 16 bytes (what RIPEMD-128,
here the parameter `rip`, always yields), the decryption transform
writes at position `i` the byte
`(((b[i] >> 4) | (b[i] << 4)) XOR prev XOR (i AND 0xFF) XOR
ripemd128(k)[i mod 16]) mod 256`, where `prev` is `0x36` for `i = 0`
and the original input byte `b[i-1]` for `i > 0`. -/
theorem c7_decrypt_formula (rip : List Nat → List Nat) (buf key : List Nat) (i : Nat)
    (hk : (rip key).length = 16) (hi : i < buf.length) :
    (decrypt rip buf key).get? i = some (
      ((((buf.getD i 0) >>> 4) ||| ((buf.getD i 0) <<< 4)) ^^^
        (if i = 0 then 0x36 else buf.getD (i - 1) 0) ^^^ (i &&& 0xFF) ^^^
        (rip key).getD (i % 16) 0) % 256) := by
  have h := decryptGo_get? (rip key) buf i 0 0x36 hi
  simpa [decrypt, hk] using h

/-- C7 witness: the formula evaluated at a concrete block, key and
position. -/
theorem c7_decrypt_formula_witness :
    (decrypt (fun _ => List.range 16) [0xAB, 0xCD] [1, 2]).get? 1 = some (
      ((((0xCD : Nat) >>> 4) ||| ((0xCD : Nat) <<< 4)) ^^^ (0xAB : Nat) ^^^ (1 &&& 0xFF) ^^^
        (List.range 16).getD (1 % 16) 0) % 256) := by
  have h := c7_decrypt_formula (fun _ => List.range 16) [0xAB, 0xCD] [1, 2] 1
    (by decide) (by decide)
  simpa using h

/-! ## C8: `readText` -/

/-- C8 counterexample: the buffer `[0x00, 0x01, 0x00, 0x00]` holds the
NUL-terminated UTF-16LE string consisting of the single code unit
U+0100 (bytes `00 01`) followed by the aligned two-byte NUL at bytes
2-3.  The claim requires the decode of exactly the bytes preceding the
NUL (`[0x00, 0x01]`) and the cursor just past the terminator (4) plus
one extra unit in v2 only (6).  The code hands the decoder
`[0x00, 0x01, 0x00]` — the byte-granular scan stops at the first two
consecutive zero bytes, at byte offset 2 — and leaves the cursor at 5,
in v1 and v2 alike. -/
theorem c8_readText_counterexample :
    Scanner.readText ⟨false, true⟩ ⟨[0, 1, 0, 0], 0⟩
        = some ([0, 1, 0], ⟨[0, 1, 0, 0], 5⟩)
    ∧ Scanner.readText ⟨true, true⟩ ⟨[0, 1, 0, 0], 0⟩
        = some ([0, 1, 0], ⟨[0, 1, 0, 0], 5⟩)
    ∧ ([0, 1, 0] : List Nat) ≠ [0, 1]
    ∧ (5 : Nat) ≠ 4 ∧ (5 : Nat) ≠ 6 := by
  refine ⟨by decide, by decide, by decide, by decide, by decide⟩

theorem findStop8Go_spec (buf : List Nat) :
    ∀ (fuel off p : Nat), off ≤ p → p < buf.length → fuel = buf.length - off →
      buf.getD p 0 = 0 → (∀ k, off ≤ k → k < p → buf.getD k 0 ≠ 0) →
      findStop8Go buf fuel off = some p := by
  intro fuel
  induction fuel with
  | zero => intro off p h1 h2 h3 _ _; omega
  | succ fuel ih =>
    intro off p h1 h2 h3 hp hk
    rw [findStop8Go]
    by_cases h0 : buf.getD off 0 = 0
    · have : off = p := by
        by_contra hne
        exact hk off (le_refl off) (by omega) h0
      rw [if_pos h0, this]
    · rw [if_neg h0]
      have hop : off < p := by
        cases Nat.eq_or_lt_of_le h1 with
        | inl he => exact absurd (he ▸ hp) h0
        | inr hlt => exact hlt
      exact ih (off + 1) p (by omega) h2 (by omega) hp
        (fun k hk1 hk2 => hk k (by omega) hk2)

/-- C8 (amended): CORRECTED.  For a buffer holding a NUL-terminated
string in a single-byte encoding, `readText` hands the decoder exactly
the bytes preceding the NUL and afterwards the cursor stands just past
the terminator — in v1 and v2 alike; `readText` never skips a
version-dependent tail unit (it always advances the decoded length
plus one code unit; the v2 tail applies to `readTextSized` only, and
the second conjunct states that `readText` is independent of the
version flag for both encodings).  For UTF-16 the claim's guarantee
does not survive the byte-granular terminator scan (see the
counterexample). -/
theorem c8_readText_amended :
    (∀ (v2 : Bool) (pre post : List Nat), (∀ b ∈ pre, b ≠ 0) →
      Scanner.readText ⟨v2, false⟩ ⟨pre ++ 0 :: post, 0⟩
        = some (pre, ⟨pre ++ 0 :: post, pre.length + 1⟩))
    ∧ (∀ (utf16 : Bool) (s : Scanner),
        Scanner.readText ⟨true, utf16⟩ s = Scanner.readText ⟨false, utf16⟩ s) := by
  constructor
  · intro v2 pre post hpre
    have hstop : findStop8 (pre ++ 0 :: post) 0 = some pre.length := by
      apply findStop8Go_spec
      · exact Nat.zero_le _
      · simp [List.length_append]
      · omega
      · rw [List.getD_append_right _ _ _ _ (le_refl _)]
        simp
      · intro k _ hk2
        rw [List.getD_append _ _ _ _ hk2, List.getD_eq_getElem _ _ hk2]
        exact hpre _ (List.getElem_mem hk2)
    have hlen : searchTextLen ⟨v2, false⟩ (pre ++ 0 :: post) 0 = some pre.length := by
      simp [searchTextLen, hstop]
    have htake : ((pre ++ 0 :: post).drop 0).take pre.length = pre := by
      simp [List.take_left]
    simp only [Scanner.readText, hlen, Option.map_some']
    rw [htake]
    simp [Config.bpu]
  · intro utf16 s
    rfl

/-- C8 witness: the amended statement at a v2 single-byte buffer
`"ab" ++ NUL ++ "x"`: the slice is `"ab"`, the cursor lands at 3, just
past the NUL, with no v2 tail unit. -/
theorem c8_readText_amended_witness :
    Scanner.readText ⟨true, false⟩ ⟨[97, 98, 0, 120], 0⟩
      = some ([97, 98], ⟨[97, 98, 0, 120], 3⟩) :=
  c8_readText_amended.1 true [97, 98] [120] (by decide)

/-! ## C5: `readBlock` tag dispatch -/

/-- C5 (amended): CORRECTED.  `readBlock` performs no tag-validity
check at all: tag 0 returns the current scanner, tag 2 is routed to
the inflate codec, and EVERY other nonzero tag — the LZO tag 1 as well
as unknown tags like 3 — is passed to the LZO decompressor; the call
fails only if that codec itself fails, never with a `MalformedBlock`
of its own. -/
theorem c5_nonzero_tags_dispatch_lzo (v2 : Bool) (inflate : List Nat → Option (List Nat))
    (lzoD : List Nat → Nat → Nat → Option (List Nat)) (rip : List Nat → List Nat)
    (len expected : Nat) (s : Scanner)
    (h0 : s.buf.getD s.off 0 ≠ 0) (h2 : s.buf.getD s.off 0 ≠ 2) :
    Scanner.readBlock v2 inflate lzoD rip false len expected s =
      match lzoD ((s.buf.drop (s.off + 8)).take (len - 8)) expected 4096 with
      | none => (none, ⟨s.buf, s.off + 8⟩)
      | some out => (some ⟨out, 0⟩, ⟨s.buf, s.off + 8 + (len - 8)⟩) := by
  simp only [Scanner.readBlock, if_neg h0, if_neg h2, Bool.false_eq_true, if_false]

/-- C5 witness: the dispatch theorem at a concrete tag-5 block and a
concrete LZO run. -/
theorem c5_nonzero_tags_dispatch_lzo_witness :
    Scanner.readBlock true (fun _ => none) (fun _ _ _ => some [7]) (fun k => k) false 10 3
        ⟨[5, 0, 0, 0, 1, 2], 0⟩
      = (some ⟨[7], 0⟩, ⟨[5, 0, 0, 0, 1, 2], 10⟩) := by
  have h := c5_nonzero_tags_dispatch_lzo true (fun _ => none) (fun _ _ _ => some [7])
    (fun k => k) 10 3 ⟨[5, 0, 0, 0, 1, 2], 0⟩ (by decide) (by decide)
  simpa using h

/-! ## C10: the frame effect of the scanner operations -/

theorem writeSlice_length (buf repl : List Nat) (pos : Nat)
    (h : pos + repl.length ≤ buf.length) :
    (writeSlice buf pos repl).length = buf.length := by
  simp [writeSlice]
  omega

theorem writeSlice_getD_left (buf repl : List Nat) (pos j : Nat)
    (hj : j < pos) (hp : pos ≤ buf.length) :
    (writeSlice buf pos repl).getD j 0 = buf.getD j 0 := by
  rw [writeSlice, List.append_assoc, List.getD_append _ _ _ _ (by simp; omega),
    List.getD_eq_getElem _ _ (by simp; omega), List.getElem_take, List.getD_eq_getElem _ _ (by omega)]

theorem writeSlice_getD_mid (buf repl : List Nat) (pos k : Nat)
    (hk : k < repl.length) (hp : pos ≤ buf.length) :
    (writeSlice buf pos repl).getD (pos + k) 0 = repl.getD k 0 := by
  have htl : (buf.take pos).length = pos := by simp; omega
  rw [writeSlice, List.append_assoc, List.getD_append_right _ _ _ _ (by rw [htl]; omega), htl]
  have e : pos + k - pos = k := by omega
  rw [e, List.getD_append _ _ _ _ hk]

theorem writeSlice_getD_right (buf repl : List Nat) (pos j : Nat)
    (hj : pos + repl.length ≤ j) (hp : pos ≤ buf.length) :
    (writeSlice buf pos repl).getD j 0 = buf.getD j 0 := by
  have htl : (buf.take pos).length = pos := by simp; omega
  rw [writeSlice, List.append_assoc, List.getD_append_right _ _ _ _ (by rw [htl]; omega), htl,
    List.getD_append_right _ _ _ _ (by omega)]
  have hdrop : ∀ m, (buf.drop (pos + repl.length)).getD m 0 = buf.getD (pos + repl.length + m) 0 := by
    intro m
    rcases Nat.lt_or_ge (pos + repl.length + m) buf.length with h | h
    · rw [List.getD_eq_getElem _ _ (by simp; omega), List.getElem_drop, List.getD_eq_getElem _ _ (by omega)]
    · rw [List.getD_eq_default _ _ (by simp; omega), List.getD_eq_default _ _ (by omega)]
  have := hdrop (j - pos - repl.length)
  rw [this]
  congr 1
  omega

/-- What `readBlock` leaves in the source buffer: unchanged, except
that with a decryptor supplied and a nonzero compression tag the
payload slice is replaced in place by its decryption. -/
theorem readBlock_snd_buf (v2 : Bool) (inflate : List Nat → Option (List Nat))
    (lzoD : List Nat → Nat → Nat → Option (List Nat)) (rip : List Nat → List Nat)
    (useDec : Bool) (len expected : Nat) (s : Scanner) :
    (Scanner.readBlock v2 inflate lzoD rip useDec len expected s).2.buf
      = if s.buf.getD s.off 0 = 0 then s.buf
        else if useDec then
          writeSlice s.buf (s.off + 8)
            (decrypt rip ((s.buf.drop (s.off + 8)).take (len - 8))
              ((s.buf.drop (s.off + 4)).take 4 ++ [0x95, 0x36, 0x00, 0x00]))
        else s.buf := by
  by_cases h0 : s.buf.getD s.off 0 = 0
  · have l : (Scanner.readBlock v2 inflate lzoD rip useDec len expected s).2.buf = s.buf := by
      simp only [Scanner.readBlock]
      rw [if_pos h0]
    rw [l, if_pos h0]
  · rw [if_neg h0]
    simp only [Scanner.readBlock]
    rw [if_neg h0]
    cases useDec with
    | false => split <;> rfl
    | true => split <;> rfl

/-- C10: CONFIRMED.  Every read operation of the scanner leaves the
underlying buffer unchanged; `readBlock` without a decryptor leaves it
unchanged too (for any tag), and with a decryptor and a nonzero
(compressed) tag it overwrites exactly the compressed payload — the
block minus its 8-byte tag-and-checksum preamble, i.e. bytes
`[off+8, off+len)` — with the decryption of those bytes, every byte
outside that range keeping its value. -/
theorem c10_scanner_frame (c : Config) (s : Scanner) (n len expected : Nat)
    (lenOpt : Option Nat) (v2 : Bool) (inflate : List Nat → Option (List Nat))
    (lzoD : List Nat → Nat → Nat → Option (List Nat)) (rip : List Nat → List Nat)
    (hlen : 8 ≤ len) (hbuf : s.off + len ≤ s.buf.length) :
    s.readInt.2.buf = s.buf
    ∧ s.readUint16.2.buf = s.buf
    ∧ s.readUint8.2.buf = s.buf
    ∧ (s.readUTF16 n).2.buf = s.buf
    ∧ (∀ r, s.readText c = some r → r.2.buf = s.buf)
    ∧ (s.readTextSized c n).2.buf = s.buf
    ∧ (s.readRaw lenOpt).2.buf = s.buf
    ∧ s.checksum.buf = s.buf
    ∧ (Scanner.readBlock v2 inflate lzoD rip false len expected s).2.buf = s.buf
    ∧ (s.buf.getD s.off 0 = 0 →
        (Scanner.readBlock v2 inflate lzoD rip true len expected s).2.buf = s.buf)
    ∧ (s.buf.getD s.off 0 ≠ 0 →
        (Scanner.readBlock v2 inflate lzoD rip true len expected s).2.buf.length = s.buf.length
        ∧ (∀ j, j < s.off + 8 →
            (Scanner.readBlock v2 inflate lzoD rip true len expected s).2.buf.getD j 0
              = s.buf.getD j 0)
        ∧ (∀ j, s.off + len ≤ j →
            (Scanner.readBlock v2 inflate lzoD rip true len expected s).2.buf.getD j 0
              = s.buf.getD j 0)
        ∧ (∀ k, k < len - 8 →
            (Scanner.readBlock v2 inflate lzoD rip true len expected s).2.buf.getD
                (s.off + 8 + k) 0
              = (decrypt rip ((s.buf.drop (s.off + 8)).take (len - 8))
                  ((s.buf.drop (s.off + 4)).take 4 ++ [0x95, 0x36, 0x00, 0x00])).getD k 0)) := by
  have hrepl : (decrypt rip ((s.buf.drop (s.off + 8)).take (len - 8))
      ((s.buf.drop (s.off + 4)).take 4 ++ [0x95, 0x36, 0x00, 0x00])).length = len - 8 := by
    rw [decrypt_length]
    simp only [List.length_take, List.length_drop]
    omega
  refine ⟨rfl, rfl, rfl, rfl, ?_, rfl, ?_, rfl, ?_, ?_, ?_⟩
  · intro r hr
    cases hst : searchTextLen c s.buf s.off with
    | none => simp [Scanner.readText, hst] at hr
    | some l =>
      simp only [Scanner.readText, hst, Option.map_some', Option.some_inj] at hr
      rw [← hr]
  · cases lenOpt <;> rfl
  · rw [readBlock_snd_buf]
    split <;> rfl
  · intro h0
    rw [readBlock_snd_buf, if_pos h0]
  · intro h0
    rw [readBlock_snd_buf, if_neg h0, if_pos rfl]
    refine ⟨?_, ?_, ?_, ?_⟩
    · exact writeSlice_length _ _ _ (by omega)
    · intro j hj
      exact writeSlice_getD_left _ _ _ _ hj (by omega)
    · intro j hj
      exact writeSlice_getD_right _ _ _ _ (by omega) (by omega)
    · intro k hk
      exact writeSlice_getD_mid _ _ _ _ (by omega) (by omega)

/-- C10 witness: the frame statement at a concrete deflate-tagged
block with a decryptor — the byte just past the block is untouched and
byte `off+8` carries the first decrypted payload byte. -/
theorem c10_scanner_frame_witness :
    (Scanner.readBlock true (fun _ => some [0]) (fun _ _ _ => some [0])
        (fun _ => List.range 16) true 10 1
        (⟨[2, 0, 0, 0, 9, 9, 9, 9, 41, 42, 77], 0⟩ : Scanner)).2.buf.getD 8 0
      = (decrypt (fun _ => List.range 16) (([2, 0, 0, 0, 9, 9, 9, 9, 41, 42, 77].drop 8).take 2)
          (([2, 0, 0, 0, 9, 9, 9, 9, 41, 42, 77].drop 4).take 4 ++ [0x95, 0x36, 0x00, 0x00])).getD 0 0
    ∧ (Scanner.readBlock true (fun _ => some [0]) (fun _ _ _ => some [0])
        (fun _ => List.range 16) true 10 1
        (⟨[2, 0, 0, 0, 9, 9, 9, 9, 41, 42, 77], 0⟩ : Scanner)).2.buf.getD 10 0 = 77 := by
  have h := c10_scanner_frame ⟨true, false⟩ ⟨[2, 0, 0, 0, 9, 9, 9, 9, 41, 42, 77], 0⟩ 0 10 1
    none true (fun _ => some [0]) (fun _ _ _ => some [0]) (fun _ => List.range 16)
    (by decide) (by decide)
  have h11 := h.2.2.2.2.2.2.2.2.2.2 (by decide)
  refine ⟨?_, ?_⟩
  · exact h11.2.2.2 0 (by decide)
  · have := h11.2.2.1 10 (by decide)
    simpa using this

/-! ## C6: correctness of the record block table lookup -/

theorem compCum_zero (p0 : Nat) (blocks : List (Nat × Nat)) : compCum p0 blocks 0 = p0 := by
  cases blocks <;> rfl

theorem decompCum_zero (blocks : List (Nat × Nat)) : decompCum blocks 0 = 0 := by
  cases blocks <;> rfl

theorem rbtArrGo_length :
    ∀ (blocks : List (Nat × Nat)) (c d : Nat),
      (rbtArrGo blocks c d).length = 2 * blocks.length + 2 := by
  intro blocks
  induction blocks with
  | nil => intro c d; rfl
  | cons x bs ih =>
    intro c d
    cases x with
    | mk cs ds =>
      simp only [rbtArrGo, List.length_cons, ih]
      omega

theorem rbtArrGo_getD :
    ∀ (blocks : List (Nat × Nat)) (c d j : Nat), j ≤ blocks.length →
      (rbtArrGo blocks c d).getD (2 * j) 0 = compCum c blocks j
      ∧ (rbtArrGo blocks c d).getD (2 * j + 1) 0 = d + decompCum blocks j := by
  intro blocks
  induction blocks with
  | nil =>
    intro c d j hj
    have hj0 : j = 0 := by simpa using hj
    subst hj0
    exact ⟨rfl, rfl⟩
  | cons x bs ih =>
    intro c d j hj
    cases x with
    | mk cs ds =>
      cases j with
      | zero => exact ⟨rfl, rfl⟩
      | succ j =>
        have hj' : j ≤ bs.length := by simpa using hj
        have h := ih (c + cs) (d + ds) j hj'
        have e2 : (rbtArrGo ((cs, ds) :: bs) c d).getD (2 * (j + 1)) 0
            = (rbtArrGo bs (c + cs) (d + ds)).getD (2 * j) 0 := by
          show (c :: d :: rbtArrGo bs (c + cs) (d + ds)).getD (2 * (j + 1)) 0 = _
          have e : 2 * (j + 1) = 2 * j + 1 + 1 := by omega
          rw [e, List.getD_cons_succ, List.getD_cons_succ]
        have e3 : (rbtArrGo ((cs, ds) :: bs) c d).getD (2 * (j + 1) + 1) 0
            = (rbtArrGo bs (c + cs) (d + ds)).getD (2 * j + 1) 0 := by
          show (c :: d :: rbtArrGo bs (c + cs) (d + ds)).getD (2 * (j + 1) + 1) 0 = _
          have e : 2 * (j + 1) + 1 = 2 * j + 1 + 1 + 1 := by omega
          rw [e, List.getD_cons_succ, List.getD_cons_succ]
        refine ⟨?_, ?_⟩
        · rw [e2, h.1]
          rfl
        · rw [e3, h.2]
          show d + ds + decompCum bs j = d + (ds + decompCum bs j)
          omega

theorem decompCum_mono :
    ∀ (blocks : List (Nat × Nat)) (j k : Nat), j ≤ k →
      decompCum blocks j ≤ decompCum blocks k := by
  intro blocks
  induction blocks with
  | nil =>
    intro j k _
    cases j <;> cases k <;> exact Nat.le_refl 0
  | cons x bs ih =>
    intro j k hjk
    cases x with
    | mk cs ds =>
      cases j with
      | zero => exact Nat.zero_le _
      | succ j =>
        cases k with
        | zero => omega
        | succ k =>
          show ds + decompCum bs j ≤ ds + decompCum bs k
          exact Nat.add_le_add_left (ih j k (by omega)) ds

theorem compCum_succ :
    ∀ (blocks : List (Nat × Nat)) (p0 b : Nat), b < blocks.length →
      compCum p0 blocks (b + 1) = compCum p0 blocks b + (blocks.getD b (0, 0)).1 := by
  intro blocks
  induction blocks with
  | nil => intro p0 b h; simp at h
  | cons x bs ih =>
    intro p0 b h
    cases x with
    | mk cs ds =>
      cases b with
      | zero =>
        show compCum (p0 + cs) bs 0 = p0 + cs
        exact compCum_zero _ _
      | succ b =>
        show compCum (p0 + cs) bs (b + 1) = compCum (p0 + cs) bs b + (bs.getD b (0, 0)).1
        exact ih (p0 + cs) b (by simpa using h)

theorem decompCum_succ :
    ∀ (blocks : List (Nat × Nat)) (b : Nat), b < blocks.length →
      decompCum blocks (b + 1) = decompCum blocks b + (blocks.getD b (0, 0)).2 := by
  intro blocks
  induction blocks with
  | nil => intro b h; simp at h
  | cons x bs ih =>
    intro b h
    cases x with
    | mk cs ds =>
      cases b with
      | zero =>
        show ds + decompCum bs 0 = 0 + ds
        rw [decompCum_zero]
        omega
      | succ b =>
        show ds + decompCum bs (b + 1) = ds + decompCum bs b + (bs.getD b (0, 0)).2
        rw [ih b (by simpa using h)]
        omega

/-- The bisection returns exactly the block containing `keyAt`,
whenever some block in the current `[lo, hi)` window does. -/
theorem rbtFindLoop_eq (p0 : Nat) (blocks : List (Nat × Nat)) (keyAt : Int) :
    ∀ (d lo hi b : Nat), hi - lo = d → lo ≤ b → b < hi → hi ≤ blocks.length →
      (decompCum blocks b : Int) ≤ keyAt → keyAt < (decompCum blocks (b + 1) : Int) →
      rbtFindLoop (rbtArr p0 blocks) keyAt lo hi = some (rbtMk (rbtArr p0 blocks) b) := by
  intro d
  induction d using Nat.strong_induction_on with
  | _ d ih =>
    intro lo hi b hd hlob hbhi hhiN hb1 hb2
    rw [rbtFindLoop]
    by_cases hsmall : hi - lo ≤ 1
    · rw [if_pos hsmall, if_pos (by omega : (lo + hi) / 2 < hi)]
      have hb : (lo + hi) / 2 = b := by omega
      rw [hb]
    · rw [if_neg hsmall]
      have hiN : (lo + hi) / 2 ≤ blocks.length := by omega
      have hval : (rbtArr p0 blocks).getD (2 * ((lo + hi) / 2) + 1) 0
          = decompCum blocks ((lo + hi) / 2) := by
        have h := (rbtArrGo_getD blocks p0 0 ((lo + hi) / 2) hiN).2
        simpa using h
      by_cases hcmp : keyAt < ((rbtArr p0 blocks).getD (2 * ((lo + hi) / 2) + 1) 0 : Int)
      · rw [if_pos hcmp]
        have hbi : b < (lo + hi) / 2 := by
          by_contra hc
          push_neg at hc
          have hmono : decompCum blocks ((lo + hi) / 2) ≤ decompCum blocks b :=
            decompCum_mono blocks _ b hc
          rw [hval] at hcmp
          omega
        exact ih ((lo + hi) / 2 - lo) (by omega) lo ((lo + hi) / 2) b rfl hlob hbi
          (by omega) hb1 hb2
      · rw [if_neg hcmp]
        have hib : (lo + hi) / 2 ≤ b := by
          by_contra hc
          push_neg at hc
          have hmono : decompCum blocks (b + 1) ≤ decompCum blocks ((lo + hi) / 2) :=
            decompCum_mono blocks (b + 1) _ (by omega)
          rw [hval] at hcmp
          push_neg at hcmp
          omega
        exact ih (hi - (lo + hi) / 2) (by omega) ((lo + hi) / 2) hi b rfl hib hbhi
          hhiN hb1 hb2

/-- C6: CONFIRMED.  For the table built from `num_blocks`
`(comp_size, decomp_size)` pairs starting at file position `p0`:
`find` returns `none` whenever `record_offset` is negative or exceeds
the final sentinel's decompressed offset (the total decompressed
size), and for every `record_offset` in the half-open decompressed
range of a block `b` — which is the unique such block, the ranges
partitioning `[0, total)` — it returns exactly block `b`'s descriptor
`(block_no, comp_offset, comp_size, decomp_offset, decomp_size)`. -/
theorem c6_record_table_find_correct (p0 : Nat) (blocks : List (Nat × Nat)) (keyAt : Int) :
    ((keyAt < 0 ∨ keyAt > (decompCum blocks blocks.length : Int)) →
      rbtFind (rbtArr p0 blocks) keyAt = none)
    ∧ (∀ b, b < blocks.length →
        (decompCum blocks b : Int) ≤ keyAt → keyAt < (decompCum blocks (b + 1) : Int) →
        rbtFind (rbtArr p0 blocks) keyAt
          = some ⟨b, compCum p0 blocks b, (blocks.getD b (0, 0)).1,
              decompCum blocks b, (blocks.getD b (0, 0)).2⟩) := by
  have hlen : (rbtArr p0 blocks).length = 2 * blocks.length + 2 := rbtArrGo_length blocks p0 0
  have hNidx : (rbtArr p0 blocks).length / 2 - 1 = blocks.length := by omega
  have harr1 : ∀ j, j ≤ blocks.length →
      (rbtArr p0 blocks).getD (2 * j) 0 = compCum p0 blocks j :=
    fun j hj => (rbtArrGo_getD blocks p0 0 j hj).1
  have harr2 : ∀ j, j ≤ blocks.length →
      (rbtArr p0 blocks).getD (2 * j + 1) 0 = decompCum blocks j := by
    intro j hj
    have h := (rbtArrGo_getD blocks p0 0 j hj).2
    simpa using h
  have hsent : (rbtArr p0 blocks).getD (2 * ((rbtArr p0 blocks).length / 2 - 1) + 1) 0
      = decompCum blocks blocks.length := by
    rw [hNidx]
    exact harr2 blocks.length (le_refl _)
  constructor
  · intro h
    rw [rbtFind, if_pos ?_]
    rw [hsent]
    omega
  · intro b hb h1 h2
    have hb1N : b + 1 ≤ blocks.length := hb
    have hmono : decompCum blocks (b + 1) ≤ decompCum blocks blocks.length :=
      decompCum_mono blocks (b + 1) blocks.length hb1N
    rw [rbtFind, if_neg ?_]
    · rw [hNidx,
        rbtFindLoop_eq p0 blocks keyAt blocks.length 0 blocks.length b (by omega)
          (Nat.zero_le b) hb (le_refl _) h1 h2]
      have e1 : (rbtArr p0 blocks).getD (2 * b) 0 = compCum p0 blocks b :=
        harr1 b (by omega)
      have e2 : (rbtArr p0 blocks).getD (2 * b + 1) 0 = decompCum blocks b :=
        harr2 b (by omega)
      have e3 : (rbtArr p0 blocks).getD (2 * b + 2) 0 = compCum p0 blocks (b + 1) := by
        have e : 2 * b + 2 = 2 * (b + 1) := by omega
        rw [e]
        exact harr1 (b + 1) hb1N
      have e4 : (rbtArr p0 blocks).getD (2 * b + 3) 0 = decompCum blocks (b + 1) := by
        have e : 2 * b + 3 = 2 * (b + 1) + 1 := by omega
        rw [e]
        exact harr2 (b + 1) hb1N
      rw [rbtMk, e1, e2, e3, e4, compCum_succ blocks p0 b hb, decompCum_succ blocks b hb]
      simp
    · rw [hsent]
      omega

/-- C6 witness: the two-block table `[(10, 5), (20, 7)]` at file
position 100; decompressed offset 6 lies in block 1. -/
theorem c6_record_table_find_correct_witness :
    rbtFind (rbtArr 100 [(10, 5), (20, 7)]) 6 = some ⟨1, 110, 20, 5, 7⟩ := by
  have h := (c6_record_table_find_correct 100 [(10, 5), (20, 7)] 6).2 1 (by decide)
    (by decide) (by decide)
  simpa using h

end MdictJs
